import Mathlib

/-!
Verification of the SICFOR certificate module
(`src/frontend/grupo_i/certificaciones.js`).

The JavaScript source is shallowly embedded:

* JS strings are Lean `String` (a packed `List Char`); the Unicode scalar
  values of `Char` stand for the code units of the JS string.  UTF-16
  surrogate-pair details are outside the model (none of the verified
  claims depend on them).
* `localStorage` is a single persistent slot, modeled as `Option String`
  (`none` = absent key).  A possible `setItem` failure (quota exceeded)
  is an environment event, passed as the Boolean `writeOk`; the Boolean
  returned next to a storage result records whether `console.error` ran.
* `JSON.stringify` applied to a list of certificate records and the
  general `JSON.parse` are embedded as an executable printer and an
  executable recursive-descent parser over `List Char`.  JSON numbers are
  kept as their source literal (the claims never compare numeric values).
* `Math.random().toString(36).slice(2, 2 + len)` : the random draw is
  represented by the list of base-36 fraction digits of the drawn number
  (what stands after the leading two characters of `toString(36)`), so
  `uid` keeps the first `len` of those digits.
* The canvas 2D context's `measureText` is an environment parameter
  `measure : String → Nat`; drawing commands are reified as `DrawCmd`.
-/

/-- A JSON value as produced by `JSON.parse`.  A number is kept as the
literal that denoted it. -/
inductive Json where
  | null : Json
  | bool : Bool → Json
  | num : String → Json
  | str : String → Json
  | arr : List Json → Json
  | obj : List (String × Json) → Json

/-- A certificate record, after `makeCertificate` (lines 20-33): all eight
fields are strings. -/
structure Cert where
  id : String
  verificationCode : String
  name : String
  title : String
  issuer : String
  date : String
  note : String
  createdAt : String
deriving DecidableEq, Repr

/-- The destructured argument `{ name, title, issuer, date, note }` of
`makeCertificate`. -/
structure CertPayload where
  name : String
  title : String
  issuer : String
  date : String
  note : String
deriving DecidableEq, Repr

/-! ## JS string primitives used by the module -/

/-- `String.prototype.toUpperCase` (ASCII part; generated codes are
ASCII base-36). -/
def jsToUpper (s : String) : String := ⟨s.data.map Char.toUpper⟩

/-- `String.prototype.toLowerCase` (ASCII part). -/
def jsToLower (s : String) : String := ⟨s.data.map Char.toLower⟩

/-- Whitespace stripped by `String.prototype.trim` (ASCII part; the
Unicode space classes never arise in the verified claims). -/
def isTrimWs (c : Char) : Bool :=
  c = ' ' || c = '\t' || c = '\n' || c = '\r' || c = '\x0b' || c = '\x0c'

/-- `String.prototype.trim`. -/
def jsTrim (s : String) : String :=
  ⟨((s.data.dropWhile isTrimWs).reverse.dropWhile isTrimWs).reverse⟩

/-- `String.prototype.split(' ')` on the character list: split at every
single space; never returns the empty list. -/
def splitOnSpace : List Char → List (List Char)
  | [] => [[]]
  | c :: cs =>
    if c = ' ' then [] :: splitOnSpace cs
    else
      match splitOnSpace cs with
      | [] => [[c]]
      | g :: gs => (c :: g) :: gs

/-- `text.split(' ')` (line 137). -/
def jsSplitSpace (s : String) : List String :=
  (splitOnSpace s.data).map String.mk

/-- Joining words with single spaces (how a candidate line renders). -/
def joinWords : List String → String
  | [] => ""
  | [w] => w
  | w :: ws => w ++ " " ++ joinWords ws

/-! ## Certificate factory (lines 11, 20-33) -/

/-- `uid(len)` = `Math.random().toString(36).slice(2, 2 + len)`, where
`digits` is the base-36 fraction-digit list of the drawn random number
(empty when the draw is `0`, shorter than `len` when the expansion
terminates early). -/
def uid (digits : List Char) (len : Nat) : String := ⟨digits.take len⟩

/-- `makeCertificate` (lines 20-33).  `r1`, `r2` are the two random draws
feeding `uid(12)` and `uid(16)`; `now` is `new Date().toISOString()`. -/
def makeCertificate (p : CertPayload) (r1 r2 : List Char) (now : String) : Cert :=
  { id := uid r1 12
    verificationCode := jsToUpper (uid r2 16)
    name := p.name
    title := p.title
    issuer := p.issuer
    date := p.date
    note := p.note
    createdAt := now }

/-! ## `JSON.stringify` of a record list (used by `storage.save`, line 48) -/

/-- Lower-case hex digit of `n < 16` (as in the `\u00XX` escapes emitted
by `JSON.stringify`). -/
def hexDigit (n : Nat) : Char := Char.ofNat (if n < 10 then 48 + n else 87 + n)

/-- The escape `JSON.stringify` applies to one character of a string. -/
def escapeChar (c : Char) : List Char :=
  if c = '"' then ['\\', '"']
  else if c = '\\' then ['\\', '\\']
  else if c = '\n' then ['\\', 'n']
  else if c = '\r' then ['\\', 'r']
  else if c = '\t' then ['\\', 't']
  else if c.toNat = 8 then ['\\', 'b']
  else if c.toNat = 12 then ['\\', 'f']
  else if c.toNat < 32 then ['\\', 'u', '0', '0', hexDigit (c.toNat / 16), hexDigit (c.toNat % 16)]
  else [c]

/-- Escape every character of a string body. -/
def escapeList : List Char → List Char
  | [] => []
  | c :: cs => escapeChar c ++ escapeList cs

/-- `JSON.stringify` of one string: quote, escaped body, quote. -/
def printStringChars (s : List Char) : List Char :=
  '"' :: (escapeList s ++ ['"'])

/-- The key/value pairs of one record, in the insertion order of the
object literal of `makeCertificate` (lines 23-32). -/
def certMembers (c : Cert) : List (String × String) :=
  [("id", c.id), ("verificationCode", c.verificationCode), ("name", c.name),
   ("title", c.title), ("issuer", c.issuer), ("date", c.date), ("note", c.note),
   ("createdAt", c.createdAt)]

/-- `JSON.stringify` of one object member: `"key":"value"`. -/
def printMember (kv : String × String) : List Char :=
  printStringChars kv.1.data ++ ':' :: printStringChars kv.2.data

/-- Members joined with commas. -/
def printMembersList : List (String × String) → List Char
  | [] => []
  | [kv] => printMember kv
  | kv :: kvs => printMember kv ++ ',' :: printMembersList kvs

/-- `JSON.stringify` of one record object. -/
def printCertChars (c : Cert) : List Char :=
  '{' :: (printMembersList (certMembers c) ++ ['}'])

/-- Records joined with commas. -/
def printCertsList : List Cert → List Char
  | [] => []
  | [c] => printCertChars c
  | c :: cs => printCertChars c ++ ',' :: printCertsList cs

/-- `JSON.stringify(list)` for a record list (line 48). -/
def stringifyCerts (l : List Cert) : String :=
  ⟨'[' :: (printCertsList l ++ [']'])⟩

/-- The JSON value that `JSON.parse` recovers for one stored record. -/
def certToJson (c : Cert) : Json :=
  Json.obj ((certMembers c).map fun kv => (kv.1, Json.str kv.2))

/-! ## `JSON.parse` (used by `storage.load`, line 40) -/

/-- JSON insignificant whitespace. -/
def isJsonWs (c : Char) : Bool := c = ' ' || c = '\t' || c = '\n' || c = '\r'

/-- Drop leading JSON whitespace. -/
def skipWs : List Char → List Char
  | [] => []
  | c :: cs => if isJsonWs c then skipWs cs else c :: cs

/-- Value of one hex digit, if any (both cases accepted by `\uXXXX`). -/
def hexVal? (c : Char) : Option Nat :=
  if 48 ≤ c.toNat ∧ c.toNat ≤ 57 then some (c.toNat - 48)
  else if 97 ≤ c.toNat ∧ c.toNat ≤ 102 then some (c.toNat - 87)
  else if 65 ≤ c.toNat ∧ c.toNat ≤ 70 then some (c.toNat - 55)
  else none

/-- Prepend a decoded character to a string-body parse result. -/
def consParsed (c : Char) : Option (List Char × List Char) → Option (List Char × List Char)
  | none => none
  | some (s, r) => some (c :: s, r)

/-- Combined value of the four hex digits of a `\uXXXX` escape, if all
four are hex digits. -/
def hex4 (a b c d : Char) : Option Nat :=
  match hexVal? a, hexVal? b, hexVal? c, hexVal? d with
  | some x1, some x2, some x3, some x4 => some (((x1 * 16 + x2) * 16 + x3) * 16 + x4)
  | _, _, _, _ => none

/-- Parse the body of a JSON string, after the opening quote, up to and
including the closing quote; returns the decoded body and the rest.  The
fuel only bounds the recursion; every step consumes at least one input
character, and callers supply `length + 1`. -/
def parseStringBody : Nat → List Char → Option (List Char × List Char)
  | 0, _ => none
  | _ + 1, [] => none
  | fuel + 1, c :: rest =>
    if c = '"' then some ([], rest)
    else if c = '\\' then
      match rest with
      | [] => none
      | e :: rest2 =>
        if e = '"' then consParsed '"' (parseStringBody fuel rest2)
        else if e = '\\' then consParsed '\\' (parseStringBody fuel rest2)
        else if e = '/' then consParsed '/' (parseStringBody fuel rest2)
        else if e = 'b' then consParsed (Char.ofNat 8) (parseStringBody fuel rest2)
        else if e = 'f' then consParsed (Char.ofNat 12) (parseStringBody fuel rest2)
        else if e = 'n' then consParsed '\n' (parseStringBody fuel rest2)
        else if e = 'r' then consParsed '\r' (parseStringBody fuel rest2)
        else if e = 't' then consParsed '\t' (parseStringBody fuel rest2)
        else if e = 'u' then
          match rest2 with
          | a :: b :: c2 :: d :: rest3 =>
            match hex4 a b c2 d with
            | some v => consParsed (Char.ofNat v) (parseStringBody fuel rest3)
            | none => none
          | _ => none
        else none
    else if c.toNat < 32 then none
    else consParsed c (parseStringBody fuel rest)

/-- Longest digit span. -/
def spanDigits : List Char → List Char × List Char
  | [] => ([], [])
  | c :: cs =>
    if c.isDigit then
      match spanDigits cs with
      | (d, r) => (c :: d, r)
    else ([], c :: cs)

/-- Optional exponent part of a JSON number. -/
def parseExpPart (acc : List Char) (cs : List Char) : Option (List Char × List Char) :=
  match cs with
  | [] => some (acc, [])
  | c :: r =>
    if c = 'e' ∨ c = 'E' then
      match r with
      | [] => none
      | s :: r2 =>
        if s = '+' ∨ s = '-' then
          match spanDigits r2 with
          | ([], _) => none
          | (ds, r3) => some (acc ++ c :: s :: ds, r3)
        else
          match spanDigits r with
          | ([], _) => none
          | (ds, r3) => some (acc ++ c :: ds, r3)
    else some (acc, c :: r)

/-- Optional fraction part, then exponent. -/
def parseFracPart (acc : List Char) (cs : List Char) : Option (List Char × List Char) :=
  match cs with
  | [] => some (acc, [])
  | c :: r =>
    if c = '.' then
      match spanDigits r with
      | ([], _) => none
      | (ds, r2) => parseExpPart (acc ++ c :: ds) r2
    else parseExpPart acc (c :: r)

/-- A JSON number literal (sign, integer, fraction, exponent). -/
def parseNumber (cs : List Char) : Option (List Char × List Char) :=
  match cs with
  | [] => none
  | c :: r =>
    if c = '-' then
      match r with
      | [] => none
      | c1 :: r1 =>
        if c1 = '0' then parseFracPart ['-', '0'] r1
        else if c1.isDigit then
          match spanDigits r1 with
          | (ds, r2) => parseFracPart ('-' :: c1 :: ds) r2
        else none
    else if c = '0' then parseFracPart ['0'] r
    else if c.isDigit then
      match spanDigits r with
      | (ds, r2) => parseFracPart (c :: ds) r2
    else none

mutual

/-- Recursive-descent JSON value parser.  The fuel only bounds the
recursion; `parseJson` supplies more than any input can consume. -/
def parseValue : Nat → List Char → Option (Json × List Char)
  | 0, _ => none
  | fuel + 1, cs =>
    match skipWs cs with
    | [] => none
    | c :: rest =>
      if c = 'n' then
        match rest with
        | 'u' :: 'l' :: 'l' :: r => some (Json.null, r)
        | _ => none
      else if c = 't' then
        match rest with
        | 'r' :: 'u' :: 'e' :: r => some (Json.bool true, r)
        | _ => none
      else if c = 'f' then
        match rest with
        | 'a' :: 'l' :: 's' :: 'e' :: r => some (Json.bool false, r)
        | _ => none
      else if c = '"' then
        (parseStringBody (rest.length + 1) rest).map fun sr => (Json.str ⟨sr.1⟩, sr.2)
      else if c = '-' ∨ c.isDigit then
        (parseNumber (c :: rest)).map fun nr => (Json.num ⟨nr.1⟩, nr.2)
      else if c = '[' then
        match skipWs rest with
        | ']' :: r => some (Json.arr [], r)
        | cs2 => (parseItems fuel cs2).map fun xr => (Json.arr xr.1, xr.2)
      else if c = '{' then
        match skipWs rest with
        | '}' :: r => some (Json.obj [], r)
        | cs2 => (parseMembers fuel cs2).map fun mr => (Json.obj mr.1, mr.2)
      else none

/-- Array elements after `[`, consuming the closing `]`. -/
def parseItems : Nat → List Char → Option (List Json × List Char)
  | 0, _ => none
  | fuel + 1, cs =>
    match parseValue fuel cs with
    | none => none
    | some (v, r) =>
      match skipWs r with
      | ',' :: r2 => (parseItems fuel r2).map fun xr => (v :: xr.1, xr.2)
      | ']' :: r2 => some ([v], r2)
      | _ => none

/-- Object members after `{`, consuming the closing `}`. -/
def parseMembers : Nat → List Char → Option (List (String × Json) × List Char)
  | 0, _ => none
  | fuel + 1, cs =>
    match skipWs cs with
    | '"' :: r =>
      match parseStringBody (r.length + 1) r with
      | none => none
      | some (k, r2) =>
        match skipWs r2 with
        | ':' :: r3 =>
          match parseValue fuel r3 with
          | none => none
          | some (v, r4) =>
            match skipWs r4 with
            | ',' :: r5 => (parseMembers fuel r5).map fun mr => ((⟨k⟩, v) :: mr.1, mr.2)
            | '}' :: r5 => some ([(⟨k⟩, v)], r5)
            | _ => none
        | _ => none
    | _ => none

end

/-- `JSON.parse`: a single value with only whitespace around it;
`none` models the thrown `SyntaxError`. -/
def parseJson (s : String) : Option Json :=
  match parseValue (s.data.length + 1) s.data with
  | some (j, r) => if skipWs r = [] then some j else none
  | none => none

/-! ## The storage helpers (lines 36-56) -/

/-- `storage.load` (lines 37-45): read the slot, defaulting absent or
empty content to `'[]'`; parse; on a parse error log and return `[]`.
Second component: whether `console.error` ran. -/
def storage.load (slot : Option String) : Json × Bool :=
  let raw : String :=
    match slot with
    | none => "[]"
    | some s => if s = "" then "[]" else s
  match parseJson raw with
  | some j => (j, false)
  | none => (Json.arr [], true)

/-- `storage.save` (lines 46-52): overwrite the slot with the serialized
list; when the underlying write fails (`writeOk = false`) log and leave
the slot unchanged.  Second component: whether `console.error` ran. -/
def storage.save (writeOk : Bool) (list : List Cert) (slot : Option String) :
    Option String × Bool :=
  if writeOk then (some (stringifyCerts list), false) else (slot, true)

/-- `storage.clear` (lines 53-55): remove the slot. -/
def storage.clear (_slot : Option String) : Option String := none

/-! ## The module actions over store state (in-memory list × slot) -/

/-- Core of `_handleGenerateAndSave` (lines 336-339): `unshift` the new
record, then `storage.save` the full list. -/
def handleAdd (writeOk : Bool) (cert : Cert) (mem : List Cert) (slot : Option String) :
    List Cert × Option String :=
  let mem2 := cert :: mem
  (mem2, (storage.save writeOk mem2 slot).1)

/-- Core of the `btn-delete` handler (lines 396-405, after the user
confirms): filter out the matching id, then `storage.save` the result. -/
def handleDelete (writeOk : Bool) (id : String) (mem : List Cert) (slot : Option String) :
    List Cert × Option String :=
  let mem2 := mem.filter fun c => c.id != id
  (mem2, (storage.save writeOk mem2 slot).1)

/-- Core of the `btn-search` handler (lines 246-257): trim and upper-case
the query; empty query short-circuits; otherwise first record whose
`verificationCode` equals the normalized query. -/
def searchLookup (certList : List Cert) (input : String) : Option Cert :=
  let q := jsToUpper (jsTrim input)
  if q = "" then none
  else certList.find? fun c => c.verificationCode == q

/-! ## The renderer parts under verification -/

/-- `wrapText` (lines 135-151): the emitted lines, in order.  `measure`
is the context's `measureText(·).width`; positions do not affect which
lines are emitted, so they are left out. -/
def wrapGo (measure : String → Nat) (maxWidth : Nat) :
    List String → Nat → String → List String
  | [], _, line => if line ≠ "" then [jsTrim line] else []
  | w :: ws, n, line =>
    let testLine := line ++ w ++ " "
    if measure testLine > maxWidth ∧ 0 < n then
      jsTrim line :: wrapGo measure maxWidth ws (n + 1) (w ++ " ")
    else
      wrapGo measure maxWidth ws (n + 1) testLine

/-- The lines `wrapText(ctx, text, x, y, maxWidth, lineHeight)` draws. -/
def wrapText (measure : String → Nat) (text : String) (maxWidth : Nat) : List String :=
  wrapGo measure maxWidth (jsSplitSpace text) 0 ""

/-- Modelled from the spec: the reference word-wrap algorithm of §4.3
("accumulate words into a candidate line; before adding a word, measure
the line's rendered width; if adding the word would exceed the max width
AND the line already has at least one word, emit the current line and
start a new one with that word; otherwise keep appending.  Trailing
partial line is always emitted at the end)."  The candidate line renders
as its words joined by single spaces. -/
def specWrapGo (measure : String → Nat) (maxWidth : Nat) :
    List String → List String → List String
  | [], cur => [joinWords cur]
  | w :: ws, cur =>
    if measure (joinWords (cur ++ [w])) > maxWidth ∧ cur ≠ [] then
      joinWords cur :: specWrapGo measure maxWidth ws [w]
    else
      specWrapGo measure maxWidth ws (cur ++ [w])

/-- Modelled from the spec: reference word-wrap over a note text. -/
def specWrap (measure : String → Nat) (text : String) (maxWidth : Nat) : List String :=
  specWrapGo measure maxWidth (jsSplitSpace text) []

/-- A character-width table induces a text measure (the model of
`ctx.measureText`: each character contributes its advance width). -/
def measureOf (charW : Char → Nat) (s : String) : Nat :=
  (s.data.map charW).sum

/-- One canvas drawing command, as issued by `drawMockQR`. -/
inductive DrawCmd where
  | save : DrawCmd
  | restore : DrawCmd
  | setFill : String → DrawCmd
  | fillRect : Int → Int → Int → Int → DrawCmd
deriving DecidableEq, Repr

/-- `drawMockQR` (lines 115-132): the command list it issues.  `text` is
the second argument of the JS function (the verification code); the
checkerboard uses `Math.floor`, i.e. flooring division. -/
def drawMockQR (text : String) (x y size : Int) : List DrawCmd :=
  let step : Int := Int.fdiv (size - 24) 6
  [DrawCmd.save, DrawCmd.setFill "#0b1220", DrawCmd.fillRect x y size size,
   DrawCmd.setFill "#fff", DrawCmd.fillRect (x + 12) (y + 12) (size - 24) (size - 24),
   DrawCmd.setFill "#0b1220"]
  ++ (((List.range 6).map fun i =>
        (((List.range 6).map fun j =>
          if (i + j) % 2 = 0 then
            [DrawCmd.fillRect (x + 12 + (i : Int) * step) (y + 12 + (j : Int) * step)
              (step - 2) (step - 2)]
          else []).flatten)).flatten)
  ++ [DrawCmd.restore]

/-- A concrete record used to instantiate theorems with hypotheses. -/
def sampleCert : Cert :=
  { id := "k3j2h4g5f6l7"
    verificationCode := "A1B2C3D4E5F6G7H8"
    name := "Ana Ruiz"
    title := "Curso de Primeros Auxilios"
    issuer := "Centro X"
    date := "2024-03-01"
    note := "Completo el curso."
    createdAt := "2024-03-01T10:00:00.000Z" }

/-! ## Round-trip: `JSON.parse ∘ JSON.stringify` on record lists -/

/-- `hexVal?` decodes the digits `hexDigit` emits. -/
theorem hexVal?_hexDigit : ∀ n < 16, hexVal? (hexDigit n) = some n := by decide

/-- One escaped source character parses back to that character. -/
theorem parseStringBody_escapeChar (f : Nat) (c : Char) (X : List Char) :
    parseStringBody (f + 1) (escapeChar c ++ X) = consParsed c (parseStringBody f X) := by
  by_cases h1 : c = '"'
  · subst h1; rfl
  by_cases h2 : c = '\\'
  · subst h2; rfl
  by_cases h3 : c = '\n'
  · subst h3; rfl
  by_cases h4 : c = '\r'
  · subst h4; rfl
  by_cases h5 : c = '\t'
  · subst h5; rfl
  by_cases h8 : c.toNat = 8
  · have hc : c = Char.ofNat 8 := by rw [← h8, Char.ofNat_toNat]
    subst hc; rfl
  by_cases h12 : c.toNat = 12
  · have hc : c = Char.ofNat 12 := by rw [← h12, Char.ofNat_toNat]
    subst hc; rfl
  by_cases hlt : c.toNat < 32
  · have hesc : escapeChar c
        = ['\\', 'u', '0', '0', hexDigit (c.toNat / 16), hexDigit (c.toNat % 16)] := by
      simp [escapeChar, h1, h2, h3, h4, h5, h8, h12, hlt]
    have base : ∀ a b : Char,
        parseStringBody (f + 1) ('\\' :: 'u' :: '0' :: '0' :: a :: b :: X)
          = match hex4 '0' '0' a b with
            | some v => consParsed (Char.ofNat v) (parseStringBody f X)
            | none => none := fun a b => rfl
    have e1 := hexVal?_hexDigit (c.toNat / 16) (by omega)
    have e2 := hexVal?_hexDigit (c.toNat % 16) (Nat.mod_lt _ (by omega))
    have e0 : hexVal? '0' = some 0 := rfl
    have ehex : hex4 '0' '0' (hexDigit (c.toNat / 16)) (hexDigit (c.toNat % 16))
        = some (c.toNat / 16 * 16 + c.toNat % 16) := by
      simp [hex4, e0, e1, e2]
    rw [hesc]
    simp only [List.cons_append, List.nil_append]
    have harith : c.toNat / 16 * 16 + c.toNat % 16 = c.toNat := by omega
    rw [base, ehex, harith]
    show consParsed (Char.ofNat c.toNat) (parseStringBody f X) = consParsed c (parseStringBody f X)
    rw [Char.ofNat_toNat]
  · have hesc : escapeChar c = [c] := by
      simp [escapeChar, h1, h2, h3, h4, h5, h8, h12, hlt]
    rw [hesc]
    show parseStringBody (f + 1) (c :: X) = consParsed c (parseStringBody f X)
    simp [parseStringBody, h1, h2, hlt]

/-- An escaped string body followed by its closing quote parses back to
the original body, with one fuel unit per character plus one to spare. -/
theorem parseStringBody_escapeList (s : List Char) :
    ∀ f r, parseStringBody (s.length + (f + 1)) (escapeList s ++ '"' :: r) = some (s, r) := by
  induction s with
  | nil => intro f r; rfl
  | cons c cs ih =>
    intro f r
    show parseStringBody (cs.length + 1 + (f + 1)) ((escapeChar c ++ escapeList cs) ++ '"' :: r)
      = some (c :: cs, r)
    rw [List.append_assoc]
    have : cs.length + 1 + (f + 1) = (cs.length + (f + 1)) + 1 := by omega
    rw [this, parseStringBody_escapeChar, ih f r]
    rfl

/-- Escaping never shortens a string. -/
theorem escapeList_length (s : List Char) : s.length ≤ (escapeList s).length := by
  induction s with
  | nil => simp [escapeList]
  | cons c cs ih =>
    have : 1 ≤ (escapeChar c).length := by
      by_cases h1 : c = '"'
      · subst h1; simp [escapeChar]
      by_cases h2 : c = '\\'
      · subst h2; simp [escapeChar, h1]
      by_cases h3 : c = '\n'
      · subst h3; simp [escapeChar, h1, h2]
      by_cases h4 : c = '\r'
      · subst h4; simp [escapeChar, h1, h2, h3]
      by_cases h5 : c = '\t'
      · subst h5; simp [escapeChar, h1, h2, h3, h4]
      by_cases h8 : c.toNat = 8
      · simp [escapeChar, h1, h2, h3, h4, h5, h8]
      by_cases h12 : c.toNat = 12
      · simp [escapeChar, h1, h2, h3, h4, h5, h8, h12]
      by_cases hlt : c.toNat < 32
      · simp [escapeChar, h1, h2, h3, h4, h5, h8, h12, hlt]
      · simp [escapeChar, h1, h2, h3, h4, h5, h8, h12, hlt]
    simp only [escapeList, List.length_append, List.length_cons]
    omega

/-- The string branch of the value parser. -/
theorem parseValue_quote (f : Nat) (X : List Char) :
    parseValue (f + 1) ('"' :: X)
      = (parseStringBody (X.length + 1) X).map fun sr => (Json.str ⟨sr.1⟩, sr.2) := rfl

/-- A printed string parses as the corresponding JSON string value. -/
theorem parseValue_printString (f : Nat) (v : String) (r : List Char) :
    parseValue (f + 1) (printStringChars v.data ++ r) = some (Json.str v, r) := by
  have hshape : printStringChars v.data ++ r = '"' :: (escapeList v.data ++ '"' :: r) := by
    simp [printStringChars]
  rw [hshape, parseValue_quote]
  have hlen : (escapeList v.data ++ '"' :: r).length + 1
      = v.data.length + ((escapeList v.data).length - v.data.length + r.length + 1 + 1) := by
    have := escapeList_length v.data
    simp only [List.length_append, List.length_cons]
    omega
  rw [hlen, parseStringBody_escapeList]
  rfl

/-- Fuel-liberal form of `parseStringBody_escapeList`. -/
theorem parseStringBody_escapeList_ge (s : List Char) (r : List Char) (F : Nat)
    (hF : s.length + 1 ≤ F) :
    parseStringBody F (escapeList s ++ '"' :: r) = some (s, r) := by
  obtain ⟨f, rfl⟩ : ∃ f, F = s.length + (f + 1) := ⟨F - s.length - 1, by omega⟩
  exact parseStringBody_escapeList s f r

/-- Fuel-liberal form of `parseValue_printString`. -/
theorem parseValue_printString_ge (F : Nat) (hF : 1 ≤ F) (v : String) (r : List Char) :
    parseValue F (printStringChars v.data ++ r) = some (Json.str v, r) := by
  obtain ⟨f, rfl⟩ : ∃ f, F = f + 1 := ⟨F - 1, by omega⟩
  exact parseValue_printString f v r

theorem skipWs_colon (W : List Char) : skipWs (':' :: W) = ':' :: W := rfl

theorem skipWs_comma (W : List Char) : skipWs (',' :: W) = ',' :: W := rfl

theorem skipWs_rbrace (W : List Char) : skipWs ('}' :: W) = '}' :: W := rfl

theorem skipWs_rbrack (W : List Char) : skipWs (']' :: W) = ']' :: W := rfl

/-- One unfolding of the member parser at a key's opening quote. -/
theorem parseMembers_step (f : Nat) (Z : List Char) :
    parseMembers (f + 1) ('"' :: Z)
      = match parseStringBody (Z.length + 1) Z with
        | none => none
        | some (k, r2) =>
          match skipWs r2 with
          | ':' :: r3 =>
            match parseValue f r3 with
            | none => none
            | some (v, r4) =>
              match skipWs r4 with
              | ',' :: r5 => (parseMembers f r5).map fun mr => ((⟨k⟩, v) :: mr.1, mr.2)
              | '}' :: r5 => some ([(⟨k⟩, v)], r5)
              | _ => none
          | _ => none
    := rfl

/-- A printed nonempty member list followed by `}` parses back to the
original members (values as JSON strings). -/
theorem parseMembers_printMembers (ms : List (String × String)) :
    ∀ F r, ms ≠ [] → ms.length + 1 ≤ F →
    parseMembers F (printMembersList ms ++ '}' :: r)
      = some (ms.map fun kv => (kv.1, Json.str kv.2), r) := by
  induction ms with
  | nil => intro F r hne; exact absurd rfl hne
  | cons kv kvs ih =>
    intro F r _ hF
    have hF2 : kvs.length + 2 ≤ F := by simpa using hF
    cases kvs with
    | nil =>
      obtain ⟨f, rfl⟩ : ∃ f, F = (f + 1) + 1 := ⟨F - 2, by omega⟩
      have hshape : printMembersList [kv] ++ '}' :: r
          = '"' :: (escapeList kv.1.data ++ '"' :: (':' :: (printStringChars kv.2.data ++ '}' :: r))) := by
        simp [printMembersList, printMember, printStringChars]
      rw [hshape, parseMembers_step]
      have hkey : parseStringBody
            ((escapeList kv.1.data ++ '"' :: (':' :: (printStringChars kv.2.data ++ '}' :: r))).length + 1)
            (escapeList kv.1.data ++ '"' :: (':' :: (printStringChars kv.2.data ++ '}' :: r)))
          = some (kv.1.data, ':' :: (printStringChars kv.2.data ++ '}' :: r)) := by
        apply parseStringBody_escapeList_ge
        have := escapeList_length kv.1.data
        simp only [List.length_append, List.length_cons]
        omega
      rw [hkey]
      simp only [skipWs_colon]
      rw [parseValue_printString_ge (f + 1) (by omega)]
      simp only [skipWs_rbrace]
      rfl
    | cons kv2 kvs2 =>
      obtain ⟨f, rfl⟩ : ∃ f, F = (f + 1) + 1 := ⟨F - 2, by omega⟩
      have hshape : printMembersList (kv :: kv2 :: kvs2) ++ '}' :: r
          = '"' :: (escapeList kv.1.data ++ '"' ::
              (':' :: (printStringChars kv.2.data ++ ',' :: (printMembersList (kv2 :: kvs2) ++ '}' :: r)))) := by
        simp [printMembersList, printMember, printStringChars]
      rw [hshape, parseMembers_step]
      have hkey : parseStringBody
            ((escapeList kv.1.data ++ '"' ::
              (':' :: (printStringChars kv.2.data ++ ',' :: (printMembersList (kv2 :: kvs2) ++ '}' :: r)))).length + 1)
            (escapeList kv.1.data ++ '"' ::
              (':' :: (printStringChars kv.2.data ++ ',' :: (printMembersList (kv2 :: kvs2) ++ '}' :: r))))
          = some (kv.1.data,
              ':' :: (printStringChars kv.2.data ++ ',' :: (printMembersList (kv2 :: kvs2) ++ '}' :: r))) := by
        apply parseStringBody_escapeList_ge
        have := escapeList_length kv.1.data
        simp only [List.length_append, List.length_cons]
        omega
      rw [hkey]
      simp only [skipWs_colon]
      rw [parseValue_printString_ge (f + 1) (by omega)]
      simp only [skipWs_comma]
      rw [ih (f + 1) r (by simp) (by simp at hF2 ⊢; omega)]
      rfl

/-- The object branch of the value parser when the first member's key
quote follows the opening brace. -/
theorem parseValue_openBrace (f : Nat) (Z : List Char) :
    parseValue (f + 1) ('{' :: '"' :: Z)
      = (parseMembers f ('"' :: Z)).map fun mr => (Json.obj mr.1, mr.2) := rfl

/-- A printed record object parses as `certToJson`. -/
theorem parseValue_printCert (F : Nat) (hF : 10 ≤ F) (c : Cert) (r : List Char) :
    parseValue F (printCertChars c ++ r) = some (certToJson c, r) := by
  obtain ⟨f, rfl⟩ : ∃ f, F = (f + 9) + 1 := ⟨F - 10, by omega⟩
  have hshape : printCertChars c ++ r = '{' :: (printMembersList (certMembers c) ++ '}' :: r) := by
    simp [printCertChars]
  obtain ⟨W, hW⟩ : ∃ W, printMembersList (certMembers c) ++ '}' :: r = '"' :: W := ⟨_, rfl⟩
  rw [hshape, hW, parseValue_openBrace, ← hW,
    parseMembers_printMembers (certMembers c) (f + 9) r (by simp [certMembers])
      (by rw [show (certMembers c).length = 8 from rfl]; omega)]
  rfl

/-- The array branch of the value parser when an object follows the
opening bracket. -/
theorem parseValue_openBracket (f : Nat) (Z : List Char) :
    parseValue (f + 1) ('[' :: '{' :: Z)
      = (parseItems f ('{' :: Z)).map fun xr => (Json.arr xr.1, xr.2) := rfl

/-- One unfolding of the item parser. -/
theorem parseItems_step (f : Nat) (cs : List Char) :
    parseItems (f + 1) cs
      = match parseValue f cs with
        | none => none
        | some (v, r) =>
          match skipWs r with
          | ',' :: r2 => (parseItems f r2).map fun xr => (v :: xr.1, xr.2)
          | ']' :: r2 => some ([v], r2)
          | _ => none
    := rfl

/-- A printed nonempty record list followed by `]` parses back to the
images of the records. -/
theorem parseItems_printCerts (l : List Cert) :
    ∀ F r, l ≠ [] → l.length + 10 ≤ F →
    parseItems F (printCertsList l ++ ']' :: r) = some (l.map certToJson, r) := by
  induction l with
  | nil => intro F r hne; exact absurd rfl hne
  | cons c cs ih =>
    intro F r _ hF
    have hF2 : cs.length + 11 ≤ F := by simpa using hF
    obtain ⟨f, rfl⟩ : ∃ f, F = f + 1 := ⟨F - 1, by omega⟩
    cases cs with
    | nil =>
      rw [parseItems_step, show printCertsList [c] = printCertChars c from rfl,
        parseValue_printCert f (by omega)]
      simp only [skipWs_rbrack]
      rfl
    | cons c2 cs2 =>
      have hshape : printCertsList (c :: c2 :: cs2) ++ ']' :: r
          = printCertChars c ++ ',' :: (printCertsList (c2 :: cs2) ++ ']' :: r) := by
        simp [printCertsList]
      rw [hshape, parseItems_step, parseValue_printCert f (by simp at hF2; omega)]
      simp only [skipWs_comma]
      rw [ih f r (by simp) (by simp at hF2 ⊢; omega)]
      rfl

theorem printMember_length_pos (kv : String × String) : 0 < (printMember kv).length := by
  simp [printMember, printStringChars]

theorem printMembersList_length (ms : List (String × String)) :
    ms.length ≤ (printMembersList ms).length := by
  induction ms with
  | nil => simp [printMembersList]
  | cons kv kvs ih =>
    cases kvs with
    | nil => simpa [printMembersList] using printMember_length_pos kv
    | cons kv2 kvs2 =>
      have := printMember_length_pos kv
      simp only [printMembersList, List.length_append, List.length_cons] at ih ⊢
      omega

theorem printCertChars_length (c : Cert) : 10 ≤ (printCertChars c).length := by
  have h := printMembersList_length (certMembers c)
  rw [show (certMembers c).length = 8 from rfl] at h
  simp only [printCertChars, List.length_cons, List.length_append]
  omega

theorem printCertsList_length (l : List Cert) : 10 * l.length ≤ (printCertsList l).length := by
  induction l with
  | nil => simp [printCertsList]
  | cons c cs ih =>
    cases cs with
    | nil => simpa [printCertsList] using printCertChars_length c
    | cons c2 cs2 =>
      have h1 := printCertChars_length c
      simp only [printCertsList, List.length_append, List.length_cons] at ih ⊢
      omega

/-- Head shape of a printed nonempty record list. -/
theorem printCertsList_cons_head (c : Cert) (cs : List Cert) :
    ∃ W, printCertsList (c :: cs) = '{' :: W := by
  cases cs with
  | nil => exact ⟨_, rfl⟩
  | cons c2 cs2 => exact ⟨_, rfl⟩

/-- The serialization round-trip law at the JSON level: parsing a
stringified record list recovers exactly the images of the records. -/
theorem parseJson_stringifyCerts (l : List Cert) :
    parseJson (stringifyCerts l) = some (Json.arr (l.map certToJson)) := by
  cases l with
  | nil => rfl
  | cons c cs =>
    have hdata : (stringifyCerts (c :: cs)).data
        = '[' :: (printCertsList (c :: cs) ++ [']']) := rfl
    obtain ⟨W, hW⟩ := printCertsList_cons_head c cs
    have hlen : (stringifyCerts (c :: cs)).data.length
        = (printCertsList (c :: cs)).length + 2 := by simp [hdata]
    have hfuel : (c :: cs).length + 10 ≤ (printCertsList (c :: cs)).length + 2 := by
      have := printCertsList_length (c :: cs)
      simp only [List.length_cons] at this ⊢
      omega
    unfold parseJson
    rw [hlen, hdata]
    have hW2 : printCertsList (c :: cs) ++ [']'] = '{' :: (W ++ [']']) := by
      rw [hW]; rfl
    rw [hW2, parseValue_openBracket, ← hW2]
    have hitems : parseItems ((printCertsList (c :: cs)).length + 2)
          (printCertsList (c :: cs) ++ ']' :: ([] : List Char))
        = some ((c :: cs).map certToJson, []) :=
      parseItems_printCerts (c :: cs) _ [] (by simp) (by omega)
    rw [show (printCertsList (c :: cs) ++ [']'] : List Char)
          = printCertsList (c :: cs) ++ ']' :: ([] : List Char) from rfl, hitems]
    rfl

/-- `storage.load` after a successful `storage.save` recovers the images
of the saved records, without logging. -/
theorem load_stringified (l : List Cert) :
    storage.load (some (stringifyCerts l)) = (Json.arr (l.map certToJson), false) := by
  have hne : stringifyCerts l ≠ "" := by
    intro h
    have h2 := congrArg String.data h
    simp only [stringifyCerts] at h2
    exact List.cons_ne_nil _ _ h2
  show (match parseJson (if stringifyCerts l = "" then "[]" else stringifyCerts l) with
        | some j => (j, false)
        | none => (Json.arr [], true)) = _
  rw [if_neg hne, parseJson_stringifyCerts]

/-- Two records with the same JSON image are equal: the loaded sequence
is deep-equal to the saved one as records, not merely as JSON. -/
theorem certToJson_inj (a b : Cert) (h : certToJson a = certToJson b) : a = b := by
  cases a; cases b
  simp only [certToJson, certMembers, List.map_cons, List.map_nil, Json.obj.injEq,
    List.cons.injEq, Prod.mk.injEq, Json.str.injEq, and_true, true_and] at h
  simp_all

/-! ## Claim theorems: storage -/

/-- C1: for every well-formed record list (the empty list included) and
every prior slot content, `storage.save(records)` followed by
`storage.load()` returns, without logging, exactly the JSON images of the
saved records — and the image map is injective, so the loaded sequence is
deep-equal to the original record list. -/
theorem save_load_roundtrip (records : List Cert) (slot : Option String) :
    storage.load (storage.save true records slot).1
      = (Json.arr (records.map certToJson), false)
    ∧ ∀ l1 l2 : List Cert, l1.map certToJson = l2.map certToJson → l1 = l2 := by
  constructor
  · exact load_stringified records
  · intro l1 l2 h
    exact List.map_injective_iff.mpr certToJson_inj h

/-- C4: `add` puts the new record at the head of the in-memory list and
persists the full list, so a subsequent `load` returns the sequence whose
head is the image of the just-added record. -/
theorem add_then_load (cert : Cert) (mem : List Cert) (slot : Option String) :
    (handleAdd true cert mem slot).1 = cert :: mem
    ∧ (handleAdd true cert mem slot).2 = some (stringifyCerts (cert :: mem))
    ∧ storage.load (handleAdd true cert mem slot).2
        = (Json.arr (certToJson cert :: mem.map certToJson), false) := by
  refine ⟨rfl, rfl, ?_⟩
  show storage.load (some (stringifyCerts (cert :: mem))) = _
  rw [load_stringified]
  rfl

/-- C5: `remove(id)` keeps exactly the records whose id differs from the
removed one, in their prior relative order; the result is persisted even
when nothing matched, and a subsequent `load` returns its images. -/
theorem remove_then_load (id : String) (mem : List Cert) (slot : Option String) :
    (handleDelete true id mem slot).1 = mem.filter (fun c => c.id != id)
    ∧ (∀ c ∈ (handleDelete true id mem slot).1, c.id ≠ id)
    ∧ (∀ c ∈ mem, c.id ≠ id → c ∈ (handleDelete true id mem slot).1)
    ∧ (handleDelete true id mem slot).2
        = some (stringifyCerts (mem.filter (fun c => c.id != id)))
    ∧ storage.load (handleDelete true id mem slot).2
        = (Json.arr ((mem.filter (fun c => c.id != id)).map certToJson), false) := by
  refine ⟨rfl, ?_, ?_, rfl, load_stringified _⟩
  · intro c hc
    have := List.of_mem_filter hc
    simpa using this
  · intro c hc hne
    exact List.mem_filter.mpr ⟨hc, by simpa using hne⟩

/-- C9: when the underlying write fails, `storage.save` logs, leaves the
slot unchanged, and a subsequent `load` still returns the previously
persisted records. -/
theorem save_failure_preserves (l old : List Cert) (slot : Option String)
    (h : slot = some (stringifyCerts old)) :
    storage.save false l slot = (slot, true)
    ∧ storage.load (storage.save false l slot).1
        = (Json.arr (old.map certToJson), false) := by
  subst h
  exact ⟨rfl, load_stringified old⟩

/-- C9 witness: a failed write over a one-record store logs, keeps the
slot, and the old record is still loaded. -/
theorem save_failure_preserves_witness :
    (some (stringifyCerts [sampleCert]) = some (stringifyCerts [sampleCert]))
    ∧ (storage.save false [] (some (stringifyCerts [sampleCert]))
          = (some (stringifyCerts [sampleCert]), true)
       ∧ storage.load (storage.save false [] (some (stringifyCerts [sampleCert]))).1
          = (Json.arr ([sampleCert].map certToJson), false)) :=
  ⟨rfl, save_failure_preserves [] [sampleCert] _ rfl⟩

/-- C8 counterexample: with the persistent slot absent, `load()` does
return the empty sequence but does not log any diagnostic, contradicting
the claim that it logs one for absent content. -/
theorem load_absent_no_log : (storage.load none).1 = Json.arr []
    ∧ ¬ (storage.load none).2 = true := by
  exact ⟨rfl, by decide⟩

/-- C8 (amended): `load()` is total (never raises); an absent or empty
slot yields the empty sequence silently; nonempty content that fails to
parse yields the empty sequence and logs a diagnostic; a slot written by
`save` yields the persisted records, most recently added first. -/
theorem load_taxonomy (s : String) (l : List Cert)
    (hbad : parseJson s = none) (hne : s ≠ "") :
    storage.load none = (Json.arr [], false)
    ∧ storage.load (some "") = (Json.arr [], false)
    ∧ storage.load (some s) = (Json.arr [], true)
    ∧ storage.load (some (stringifyCerts l)) = (Json.arr (l.map certToJson), false) := by
  refine ⟨rfl, rfl, ?_, load_stringified l⟩
  show (match parseJson (if s = "" then "[]" else s) with
        | some j => (j, false)
        | none => (Json.arr [], true)) = _
  rw [if_neg hne, hbad]

/-- C8 witness: the taxonomy at the malformed content `"{"` and a
one-record list. -/
theorem load_taxonomy_witness :
    (parseJson "\x7b" = none ∧ ("\x7b" : String) ≠ "")
    ∧ (storage.load none = (Json.arr [], false)
       ∧ storage.load (some "") = (Json.arr [], false)
       ∧ storage.load (some "\x7b") = (Json.arr [], true)
       ∧ storage.load (some (stringifyCerts [sampleCert]))
          = (Json.arr ([sampleCert].map certToJson), false)) :=
  ⟨⟨rfl, by decide⟩, load_taxonomy "\x7b" [sampleCert] rfl (by decide)⟩

/-! ## Word-wrap: relating `wrapText` to the reference algorithm -/

theorem splitOnSpace_ne_nil (cs : List Char) : splitOnSpace cs ≠ [] := by
  induction cs with
  | nil => simp [splitOnSpace]
  | cons c cs ih =>
    by_cases h : c = ' '
    · simp [splitOnSpace, h]
    · simp only [splitOnSpace, if_neg h]
      cases hs : splitOnSpace cs with
      | nil => simp
      | cons g gs => simp

theorem jsSplitSpace_ne_nil (s : String) : jsSplitSpace s ≠ [] := by
  unfold jsSplitSpace
  simp [splitOnSpace_ne_nil]

theorem joinWords_append_one (cur : List String) (w : String) (h : cur ≠ []) :
    joinWords (cur ++ [w]) = joinWords cur ++ " " ++ w := by
  induction cur with
  | nil => exact absurd rfl h
  | cons x xs ih =>
    cases xs with
    | nil => rfl
    | cons y ys =>
      show x ++ " " ++ joinWords ((y :: ys) ++ [w]) = x ++ " " ++ joinWords (y :: ys) ++ " " ++ w
      rw [ih (by simp), ← String.append_assoc, ← String.append_assoc]

theorem append_space_ne_empty (s : String) : s ++ " " ≠ "" := by
  intro h
  have h2 := congrArg String.data h
  simp at h2

theorem jsTrim_append_space (s : String) : jsTrim (s ++ " ") = jsTrim s := by
  unfold jsTrim
  rw [String.data_append]
  show String.mk (((s.data ++ (" " : String).data).dropWhile isTrimWs).reverse.dropWhile
      isTrimWs).reverse = _
  rw [List.dropWhile_append]
  by_cases hE : (s.data.dropWhile isTrimWs).isEmpty
  · rw [if_pos hE]
    have h0 : (s.data.dropWhile isTrimWs) = [] := by simpa [List.isEmpty_iff] using hE
    rw [h0]
    rfl
  · rw [if_neg hE]
    have : ((s.data.dropWhile isTrimWs) ++ (" " : String).data).reverse
        = ' ' :: (s.data.dropWhile isTrimWs).reverse := by
      simp
    rw [this, List.dropWhile_cons_of_pos (by decide)]

/-- The wrap loop agrees with the reference algorithm run on the measure
that appends one trailing space, with lines trimmed, once the first word
has been placed on the line. -/
theorem wrapGo_eq_spec (measure : String → Nat) (maxW : Nat) :
    ∀ ws cur n, cur ≠ [] → 0 < n →
    wrapGo measure maxW ws n (joinWords cur ++ " ")
      = (specWrapGo (fun s => measure (s ++ " ")) maxW ws cur).map jsTrim := by
  intro ws
  induction ws with
  | nil =>
    intro cur n hcur hn
    show (if joinWords cur ++ " " ≠ "" then [jsTrim (joinWords cur ++ " ")] else [])
      = [jsTrim (joinWords cur)]
    rw [if_pos (append_space_ne_empty _), jsTrim_append_space]
  | cons w ws ih =>
    intro cur n hcur hn
    have hline : (joinWords cur ++ " ") ++ w ++ " " = joinWords (cur ++ [w]) ++ " " := by
      rw [joinWords_append_one cur w hcur]
    show (if measure ((joinWords cur ++ " ") ++ w ++ " ") > maxW ∧ 0 < n then
        jsTrim (joinWords cur ++ " ") :: wrapGo measure maxW ws (n + 1) (w ++ " ")
      else wrapGo measure maxW ws (n + 1) ((joinWords cur ++ " ") ++ w ++ " ")) = _
    rw [hline]
    by_cases hover : measure (joinWords (cur ++ [w]) ++ " ") > maxW
    · rw [if_pos ⟨hover, hn⟩]
      show _ = (specWrapGo (fun s => measure (s ++ " ")) maxW (w :: ws) cur).map jsTrim
      rw [show specWrapGo (fun s => measure (s ++ " ")) maxW (w :: ws) cur
            = joinWords cur :: specWrapGo (fun s => measure (s ++ " ")) maxW ws [w] from by
          show (if measure (joinWords (cur ++ [w]) ++ " ") > maxW ∧ cur ≠ [] then
              joinWords cur :: specWrapGo (fun s => measure (s ++ " ")) maxW ws [w]
            else specWrapGo (fun s => measure (s ++ " ")) maxW ws (cur ++ [w])) = _
          rw [if_pos ⟨hover, hcur⟩]]
      rw [List.map_cons, jsTrim_append_space]
      have hw : (w ++ " " : String) = joinWords [w] ++ " " := rfl
      rw [hw, ih [w] (n + 1) (by simp) (by omega)]
    · rw [if_neg (by tauto)]
      show _ = (specWrapGo (fun s => measure (s ++ " ")) maxW (w :: ws) cur).map jsTrim
      rw [show specWrapGo (fun s => measure (s ++ " ")) maxW (w :: ws) cur
            = specWrapGo (fun s => measure (s ++ " ")) maxW ws (cur ++ [w]) from by
          show (if measure (joinWords (cur ++ [w]) ++ " ") > maxW ∧ cur ≠ [] then
              joinWords cur :: specWrapGo (fun s => measure (s ++ " ")) maxW ws [w]
            else specWrapGo (fun s => measure (s ++ " ")) maxW ws (cur ++ [w])) = _
          rw [if_neg (by tauto)]]
      exact ih (cur ++ [w]) (n + 1) (by simp) (by omega)

/-- `wrapText` equals the reference algorithm, run with the measure that
appends one trailing space to the candidate line, with every emitted line
trimmed. -/
theorem wrap_eq_spec (measure : String → Nat) (text : String) (maxW : Nat) :
    wrapText measure text maxW
      = (specWrap (fun s => measure (s ++ " ")) text maxW).map jsTrim := by
  unfold wrapText specWrap
  obtain ⟨w, ws, hsplit⟩ : ∃ w ws, jsSplitSpace text = w :: ws := by
    cases h : jsSplitSpace text with
    | nil => exact absurd h (jsSplitSpace_ne_nil text)
    | cons w ws => exact ⟨w, ws, rfl⟩
  rw [hsplit]
  show (if measure ("" ++ w ++ " ") > maxW ∧ 0 < 0 then
      jsTrim "" :: wrapGo measure maxW ws (0 + 1) (w ++ " ")
    else wrapGo measure maxW ws (0 + 1) ("" ++ w ++ " ")) = _
  rw [if_neg (by simp)]
  rw [show specWrapGo (fun s => measure (s ++ " ")) maxW (w :: ws) []
        = specWrapGo (fun s => measure (s ++ " ")) maxW ws [w] from by
      show (if measure (joinWords ([] ++ [w]) ++ " ") > maxW ∧ ([] : List String) ≠ [] then
          joinWords [] :: specWrapGo (fun s => measure (s ++ " ")) maxW ws [w]
        else specWrapGo (fun s => measure (s ++ " ")) maxW ws ([] ++ [w])) = _
      rw [if_neg (by simp)]
      rfl]
  have hw : ("" ++ w ++ " " : String) = joinWords [w] ++ " " := by
    show ("" ++ w) ++ " " = w ++ " "
    rw [String.ext_iff]
    simp
  rw [hw]
  exact wrapGo_eq_spec measure maxW ws [w] 1 (by simp) (by omega)

theorem measureOf_append (cw : Char → Nat) (a b : String) :
    measureOf cw (a ++ b) = measureOf cw a + measureOf cw b := by
  simp [measureOf]

theorem measureOf_le_append_space (cw : Char → Nat) (s : String) :
    measureOf cw s ≤ measureOf cw (s ++ " ") := by
  rw [measureOf_append]
  omega

theorem measureOf_jsTrim_le (cw : Char → Nat) (s : String) :
    measureOf cw (jsTrim s) ≤ measureOf cw s := by
  unfold measureOf jsTrim
  have h1 : List.Sublist (s.data.dropWhile isTrimWs) s.data := List.dropWhile_sublist _
  have h2 : List.Sublist ((s.data.dropWhile isTrimWs).reverse.dropWhile isTrimWs)
      (s.data.dropWhile isTrimWs).reverse := List.dropWhile_sublist _
  have hrev : ∀ L : List Char, ((L.reverse).map cw).sum = (L.map cw).sum := fun L => by
    rw [List.map_reverse, List.sum_reverse]
  have k2 : (((s.data.dropWhile isTrimWs).reverse.dropWhile isTrimWs).reverse.map cw).sum
      ≤ ((s.data.dropWhile isTrimWs).map cw).sum := by
    rw [hrev]
    have h := List.Sublist.sum_le_sum (h2.map cw) (fun a _ => Nat.zero_le a)
    rw [hrev] at h
    exact h
  have k1 : ((s.data.dropWhile isTrimWs).map cw).sum ≤ (s.data.map cw).sum :=
    List.Sublist.sum_le_sum (h1.map cw) (fun a _ => Nat.zero_le a)
  exact le_trans k2 k1

/-- Joining the split of a text restores the text (split/join inverse at
the character level). -/
theorem joinWords_splitOnSpace (cs : List Char) :
    (joinWords ((splitOnSpace cs).map String.mk)).data = cs := by
  induction cs with
  | nil => rfl
  | cons c cs ih =>
    by_cases hc : c = ' '
    · subst hc
      simp only [splitOnSpace, if_pos rfl, List.map_cons]
      cases h : splitOnSpace cs with
      | nil => exact absurd h (splitOnSpace_ne_nil cs)
      | cons g gs =>
        rw [h] at ih
        simp only [List.map_cons] at ih
        show ((String.mk [] ++ " " ++ joinWords (String.mk g :: gs.map String.mk))).data
          = ' ' :: cs
        simp only [String.data_append] at ih ⊢
        rw [ih]
        rfl
    · simp only [splitOnSpace, if_neg hc]
      cases h : splitOnSpace cs with
      | nil => exact absurd h (splitOnSpace_ne_nil cs)
      | cons g gs =>
        rw [h] at ih
        cases gs with
        | nil =>
          simp only [List.map_cons, List.map_nil] at ih ⊢
          have hg : (String.mk g).data = cs := by simpa [joinWords] using ih
          show (String.mk (c :: g)).data = c :: cs
          rw [show (String.mk (c :: g)).data = c :: g from rfl, hg.symm]
        | cons g2 gs2 =>
          simp only [List.map_cons] at ih ⊢
          have hih : ((String.mk g ++ " " ++ joinWords (String.mk g2 :: gs2.map String.mk))).data
              = cs := by simpa [joinWords] using ih
          show ((String.mk (c :: g) ++ " " ++ joinWords (String.mk g2 :: gs2.map String.mk))).data
            = c :: cs
          simp only [String.data_append] at hih ⊢
          rw [← hih]
          rfl

/-- Joining the words of a text restores the text. -/
theorem joinWords_jsSplitSpace (s : String) : joinWords (jsSplitSpace s) = s := by
  apply String.ext
  exact joinWords_splitOnSpace s.data

/-- Modelled from the spec: a run of the reference algorithm starting
from a nonempty fitting line partitions the remaining words into
nonempty, fitting blocks whose joins are the emitted lines. -/
theorem specWrapGo_blocks (m : String → Nat) (maxW : Nat) :
    ∀ ws cur, cur ≠ [] → m (joinWords cur) ≤ maxW → (∀ w ∈ ws, m (joinWords [w]) ≤ maxW) →
    ∃ blocks : List (List String),
      specWrapGo m maxW ws cur = blocks.map joinWords
      ∧ blocks.flatten = cur ++ ws
      ∧ (∀ b ∈ blocks, b ≠ [])
      ∧ (∀ b ∈ blocks, m (joinWords b) ≤ maxW) := by
  intro ws
  induction ws with
  | nil =>
    intro cur hcur hm _
    exact ⟨[cur], by simp [specWrapGo], by simp, by simpa using hcur, by simpa using hm⟩
  | cons w ws ih =>
    intro cur hcur hm hfit
    by_cases hover : m (joinWords (cur ++ [w])) > maxW ∧ cur ≠ []
    · obtain ⟨blocks, h1, h2, h3, h4⟩ :=
        ih [w] (by simp) (hfit w (by simp)) (fun x hx => hfit x (by simp [hx]))
      refine ⟨cur :: blocks, ?_, ?_, ?_, ?_⟩
      · show (if m (joinWords (cur ++ [w])) > maxW ∧ cur ≠ [] then
            joinWords cur :: specWrapGo m maxW ws [w]
          else specWrapGo m maxW ws (cur ++ [w])) = _
        rw [if_pos hover, h1]
        rfl
      · simp [h2]
      · intro b hb
        rcases List.mem_cons.mp hb with hb2 | hb2
        · exact hb2 ▸ hcur
        · exact h3 b hb2
      · intro b hb
        rcases List.mem_cons.mp hb with hb2 | hb2
        · exact hb2 ▸ hm
        · exact h4 b hb2
    · have hle : m (joinWords (cur ++ [w])) ≤ maxW := by
        by_contra hgt
        exact hover ⟨by omega, hcur⟩
      obtain ⟨blocks, h1, h2, h3, h4⟩ :=
        ih (cur ++ [w]) (by simp) hle (fun x hx => hfit x (by simp [hx]))
      refine ⟨blocks, ?_, by simp [h2], h3, h4⟩
      show (if m (joinWords (cur ++ [w])) > maxW ∧ cur ≠ [] then
          joinWords cur :: specWrapGo m maxW ws [w]
        else specWrapGo m maxW ws (cur ++ [w])) = _
      rw [if_neg hover]
      exact h1

/-- The reference algorithm always appends the first word silently. -/
theorem specWrap_start (m : String → Nat) (maxW : Nat) (text : String) (w : String)
    (ws : List String) (h : jsSplitSpace text = w :: ws) :
    specWrap m text maxW = specWrapGo m maxW ws [w] := by
  unfold specWrap
  rw [h]
  show (if m (joinWords ([] ++ [w])) > maxW ∧ ([] : List String) ≠ [] then
      joinWords [] :: specWrapGo m maxW ws [w]
    else specWrapGo m maxW ws ([] ++ [w])) = _
  rw [if_neg (by simp)]
  rfl

/-! ## Claim theorems: word wrap -/

/-- C3 counterexample: with per-character width 1 and maximum width 5,
the words `ab cd` fit the reference line `ab cd` exactly (width 5), but
`wrapText` measures the candidate with a trailing space (width 6) and
breaks, so the code differs from the reference algorithm as specified. -/
theorem wrapText_ne_reference :
    wrapText (measureOf fun _ => 1) "ab cd" 5 ≠ specWrap (measureOf fun _ => 1) "ab cd" 5 := by
  decide

/-- C3 (amended): `wrapText` implements the reference algorithm up to two
systematic deviations: the measured candidate line carries one trailing
space (the code builds lines as `word + ' '` runs and measures that), and
every emitted line is trimmed of surrounding whitespace.  Formally, the
code equals the reference run with the space-appending measure, with
lines trimmed. -/
theorem wrapText_refines_reference (measure : String → Nat) (text : String) (maxW : Nat) :
    wrapText measure text maxW
      = (specWrap (fun s => measure (s ++ " ")) text maxW).map jsTrim :=
  wrap_eq_spec measure text maxW

/-- C2 counterexample: a note consisting of one 9-character word at
per-character width 100 exceeds the 880 column, yet `wrapText` emits a
single line, and that line's measured width (900) exceeds the maximum —
refuting both the more-than-one-line and the width-bound conjuncts. -/
theorem wrapText_overwide_word :
    880 < measureOf (fun _ => 100) "abcdefghi"
    ∧ ¬ (1 < (wrapText (measureOf fun _ => 100) "abcdefghi" 880).length
        ∧ ∀ line ∈ wrapText (measureOf fun _ => 100) "abcdefghi" 880,
            measureOf (fun _ => 100) line ≤ 880) := by
  decide

/-- C2 (amended): under an additive character measure, whenever every
word of the note fits the column even with its trailing space, a note
wider than the column wraps to more than one line, every emitted line
measures within the maximum, and the lines are the trimmed space-joins of
an in-order partition of the words — so no word is split across lines. -/
theorem wrapText_lines_bounded (charW : Char → Nat) (text : String) (maxW : Nat)
    (hfit : ∀ w ∈ jsSplitSpace text, measureOf charW (w ++ " ") ≤ maxW)
    (hover : maxW < measureOf charW text) :
    1 < (wrapText (measureOf charW) text maxW).length
    ∧ (∀ line ∈ wrapText (measureOf charW) text maxW, measureOf charW line ≤ maxW)
    ∧ ∃ blocks : List (List String),
        blocks.flatten = jsSplitSpace text
        ∧ (∀ b ∈ blocks, b ≠ [])
        ∧ wrapText (measureOf charW) text maxW = blocks.map fun b => jsTrim (joinWords b) := by
  obtain ⟨w, ws, hsplit⟩ : ∃ w ws, jsSplitSpace text = w :: ws := by
    cases h : jsSplitSpace text with
    | nil => exact absurd h (jsSplitSpace_ne_nil text)
    | cons w ws => exact ⟨w, ws, rfl⟩
  have hwmem : w ∈ jsSplitSpace text := by rw [hsplit]; exact List.mem_cons_self w ws
  obtain ⟨blocks, h1, h2, h3, h4⟩ :=
    specWrapGo_blocks (fun s => measureOf charW (s ++ " ")) maxW ws [w] (by simp)
      (hfit w hwmem)
      (fun x hx => hfit x (by rw [hsplit]; exact List.mem_cons_of_mem w hx))
  have hwrap : wrapText (measureOf charW) text maxW = (blocks.map joinWords).map jsTrim := by
    rw [wrap_eq_spec, specWrap_start _ _ _ _ _ hsplit, h1]
  have hjoin : blocks.flatten = jsSplitSpace text := by
    rw [h2, hsplit]
    rfl
  refine ⟨?_, ?_, blocks, hjoin, h3, ?_⟩
  · rw [hwrap]
    simp only [List.length_map]
    rcases blocks with _ | ⟨b, rest⟩
    · exact absurd hjoin.symm (by simpa using jsSplitSpace_ne_nil text)
    rcases rest with _ | ⟨b2, rest2⟩
    · exfalso
      have hb : b = jsSplitSpace text := by simpa using hjoin
      have hm := h4 b (by simp)
      rw [hb, joinWords_jsSplitSpace] at hm
      have := measureOf_le_append_space charW text
      omega
    · simp
  · intro line hline
    rw [hwrap] at hline
    simp only [List.map_map, List.mem_map] at hline
    obtain ⟨b, hb, rfl⟩ := hline
    have hm := h4 b hb
    calc measureOf charW (jsTrim (joinWords b)) ≤ measureOf charW (joinWords b) :=
          measureOf_jsTrim_le charW (joinWords b)
      _ ≤ measureOf charW (joinWords b ++ " ") := measureOf_le_append_space charW _
      _ ≤ maxW := hm
  · rw [hwrap]
    simp [List.map_map]

/-- C2 witness: per-character width 1, text `aa bb cc`, maximum 5: each
word fits, the text exceeds the column, and the amended conclusions hold. -/
theorem wrapText_lines_bounded_witness :
    ((∀ w ∈ jsSplitSpace "aa bb cc", measureOf (fun _ => 1) (w ++ " ") ≤ 5)
      ∧ 5 < measureOf (fun _ => 1) "aa bb cc")
    ∧ (1 < (wrapText (measureOf fun _ => 1) "aa bb cc" 5).length
       ∧ (∀ line ∈ wrapText (measureOf fun _ => 1) "aa bb cc" 5,
            measureOf (fun _ => 1) line ≤ 5)
       ∧ ∃ blocks : List (List String),
            blocks.flatten = jsSplitSpace "aa bb cc"
            ∧ (∀ b ∈ blocks, b ≠ [])
            ∧ wrapText (measureOf fun _ => 1) "aa bb cc" 5
                = blocks.map fun b => jsTrim (joinWords b)) :=
  ⟨⟨by decide, by decide⟩, wrapText_lines_bounded (fun _ => 1) "aa bb cc" 5
    (by decide) (by decide)⟩

/-! ## Characters of generated verification codes -/

/-- An upper-case-alphanumeric code unit: a decimal digit or an
upper-case basic-latin letter (what `uid(16).toUpperCase()` produces). -/
def isUpperAlnumChar (c : Char) : Prop :=
  (48 ≤ c.toNat ∧ c.toNat ≤ 57) ∨ (65 ≤ c.toNat ∧ c.toNat ≤ 90)

/-- A base-36 fraction digit of `Math.random().toString(36)`: a decimal
digit or a lower-case basic-latin letter. -/
def isBase36Char (c : Char) : Prop :=
  (48 ≤ c.toNat ∧ c.toNat ≤ 57) ∨ (97 ≤ c.toNat ∧ c.toNat ≤ 122)

instance (c : Char) : Decidable (isUpperAlnumChar c) := by
  unfold isUpperAlnumChar
  infer_instance

instance (c : Char) : Decidable (isBase36Char c) := by
  unfold isBase36Char
  infer_instance

theorem toNat_ofNat_valid (m : Nat) (h : m < 55296) : (Char.ofNat m).toNat = m := by
  unfold Char.ofNat
  rw [dif_pos (Or.inl h)]
  rfl

theorem toUpper_eq_self (c : Char) (h : isUpperAlnumChar c) : c.toUpper = c := by
  show (if 97 ≤ c.toNat ∧ c.toNat ≤ 122 then Char.ofNat (c.toNat - 32) else c) = c
  rw [if_neg (by rcases h with ⟨h1, h2⟩ | ⟨h1, h2⟩ <;> omega)]

theorem toUpper_toLower_eq_self (c : Char) (h : isUpperAlnumChar c) :
    c.toLower.toUpper = c := by
  show (Char.toUpper (if 65 ≤ c.toNat ∧ c.toNat ≤ 90 then Char.ofNat (c.toNat + 32) else c)) = c
  rcases h with ⟨h1, h2⟩ | ⟨h1, h2⟩
  · rw [if_neg (by omega), toUpper_eq_self c (Or.inl ⟨h1, h2⟩)]
  · rw [if_pos ⟨h1, h2⟩]
    have ht : (Char.ofNat (c.toNat + 32)).toNat = c.toNat + 32 := by
      apply toNat_ofNat_valid
      omega
    show (if 97 ≤ (Char.ofNat (c.toNat + 32)).toNat ∧ (Char.ofNat (c.toNat + 32)).toNat ≤ 122
        then Char.ofNat ((Char.ofNat (c.toNat + 32)).toNat - 32)
        else Char.ofNat (c.toNat + 32)) = c
    rw [ht, if_pos (by omega), Nat.add_sub_cancel, Char.ofNat_toNat]

theorem isTrimWs_false_of_ge (c : Char) (h : 48 ≤ c.toNat) : isTrimWs c = false := by
  have h1 : c ≠ ' ' := fun he => absurd h (by subst he; decide)
  have h2 : c ≠ '\t' := fun he => absurd h (by subst he; decide)
  have h3 : c ≠ '\n' := fun he => absurd h (by subst he; decide)
  have h4 : c ≠ '\r' := fun he => absurd h (by subst he; decide)
  have h5 : c ≠ '\x0b' := fun he => absurd h (by subst he; decide)
  have h6 : c ≠ '\x0c' := fun he => absurd h (by subst he; decide)
  simp [isTrimWs, h1, h2, h3, h4, h5, h6]

theorem dropWhile_eq_self_of (p : Char → Bool) (d : List Char)
    (h : ∀ c ∈ d, p c = false) : d.dropWhile p = d := by
  cases d with
  | nil => rfl
  | cons c cs =>
    exact List.dropWhile_cons_of_neg (by simp [h c (List.mem_cons_self c cs)])

theorem map_eq_self_of (f : Char → Char) (d : List Char) (h : ∀ c ∈ d, f c = c) :
    d.map f = d := by
  induction d with
  | nil => rfl
  | cons c cs ih => simp [h c (by simp), ih (fun x hx => h x (by simp [hx]))]

theorem jsTrim_eq_self (s : String) (h : ∀ c ∈ s.data, 48 ≤ c.toNat) : jsTrim s = s := by
  apply String.ext
  show (((s.data.dropWhile isTrimWs).reverse.dropWhile isTrimWs)).reverse = s.data
  have h1 : s.data.dropWhile isTrimWs = s.data :=
    dropWhile_eq_self_of _ _ (fun c hc => isTrimWs_false_of_ge c (h c hc))
  rw [h1]
  have h2 : s.data.reverse.dropWhile isTrimWs = s.data.reverse :=
    dropWhile_eq_self_of _ _ (fun c hc => isTrimWs_false_of_ge c (h c (by simpa using hc)))
  rw [h2, List.reverse_reverse]

theorem jsToUpper_eq_self (s : String) (h : ∀ c ∈ s.data, isUpperAlnumChar c) :
    jsToUpper s = s := by
  apply String.ext
  show s.data.map Char.toUpper = s.data
  exact map_eq_self_of _ _ (fun c hc => toUpper_eq_self c (h c hc))

/-! ## Claim theorems: code lookup (C6) -/

/-- C6: looking a stored code up by its lower-cased spelling gives the
same result as looking it up by its exact upper-case spelling (the
handler upper-cases the query first), and a stored record's code is
found. -/
theorem search_case_insensitive (l : List Cert) (c : Cert) (code : String)
    (halnum : ∀ ch ∈ code.data, isUpperAlnumChar ch)
    (hmem : c ∈ l) (hcode : c.verificationCode = code) (hne : code ≠ "") :
    searchLookup l (jsToLower code) = searchLookup l code
    ∧ ∃ r, searchLookup l code = some r := by
  have hge : ∀ ch ∈ code.data, 48 ≤ ch.toNat := fun ch hch => by
    rcases halnum ch hch with ⟨h1, _⟩ | ⟨h1, _⟩ <;> omega
  have hlow_ge : ∀ ch ∈ (jsToLower code).data, 48 ≤ ch.toNat := by
    intro ch hch
    simp only [jsToLower] at hch
    obtain ⟨x, hx, rfl⟩ := List.mem_map.mp hch
    rcases halnum x hx with ⟨h1, h2⟩ | ⟨h1, h2⟩
    · show 48 ≤ (if 65 ≤ x.toNat ∧ x.toNat ≤ 90 then Char.ofNat (x.toNat + 32) else x).toNat
      rw [if_neg (by omega)]
      omega
    · show 48 ≤ (if 65 ≤ x.toNat ∧ x.toNat ≤ 90 then Char.ofNat (x.toNat + 32) else x).toNat
      rw [if_pos ⟨h1, h2⟩, toNat_ofNat_valid _ (by omega)]
      omega
  have hq1 : jsToUpper (jsTrim (jsToLower code)) = code := by
    rw [jsTrim_eq_self _ hlow_ge]
    apply String.ext
    show (jsToLower code).data.map Char.toUpper = code.data
    simp only [jsToLower, List.map_map]
    rw [show (Char.toUpper ∘ Char.toLower) = fun c => c.toLower.toUpper from rfl]
    exact map_eq_self_of _ _ (fun ch hch => toUpper_toLower_eq_self ch (halnum ch hch))
  have hq2 : jsToUpper (jsTrim code) = code := by
    rw [jsTrim_eq_self _ hge, jsToUpper_eq_self _ halnum]
  constructor
  · show (if jsToUpper (jsTrim (jsToLower code)) = "" then none
        else l.find? fun x => x.verificationCode == jsToUpper (jsTrim (jsToLower code)))
      = (if jsToUpper (jsTrim code) = "" then none
        else l.find? fun x => x.verificationCode == jsToUpper (jsTrim code))
    rw [hq1, hq2]
  · show ∃ r, (if jsToUpper (jsTrim code) = "" then none
        else l.find? fun x => x.verificationCode == jsToUpper (jsTrim code)) = some r
    rw [hq2, if_neg hne]
    have hsome : (l.find? fun x => x.verificationCode == code).isSome := by
      rw [List.find?_isSome]
      exact ⟨c, hmem, by simp [hcode]⟩
    obtain ⟨r, hr⟩ := Option.isSome_iff_exists.mp hsome
    exact ⟨r, hr⟩

/-- C6 witness: the sample record's code, searched lower-cased and exact,
over the one-record store. -/
theorem search_case_insensitive_witness :
    ((∀ ch ∈ ("A1B2C3D4E5F6G7H8" : String).data, isUpperAlnumChar ch)
      ∧ sampleCert ∈ [sampleCert]
      ∧ sampleCert.verificationCode = "A1B2C3D4E5F6G7H8"
      ∧ ("A1B2C3D4E5F6G7H8" : String) ≠ "")
    ∧ (searchLookup [sampleCert] (jsToLower "A1B2C3D4E5F6G7H8")
        = searchLookup [sampleCert] "A1B2C3D4E5F6G7H8"
       ∧ ∃ r, searchLookup [sampleCert] "A1B2C3D4E5F6G7H8" = some r) :=
  ⟨⟨by decide, by simp, rfl, by decide⟩,
    search_case_insensitive [sampleCert] sampleCert "A1B2C3D4E5F6G7H8"
      (by decide) (by simp) rfl (by decide)⟩

/-! ## Claim theorems: the factory's generated identifiers (C7) -/

theorem char_eq_of_toNat (x y : Char) (h : x.toNat = y.toNat) : x = y := by
  have h2 := congrArg Char.ofNat h
  rwa [Char.ofNat_toNat, Char.ofNat_toNat] at h2

theorem toUpper_base36 (c : Char) (h : isBase36Char c) : isUpperAlnumChar c.toUpper := by
  show isUpperAlnumChar (if 97 ≤ c.toNat ∧ c.toNat ≤ 122 then Char.ofNat (c.toNat - 32) else c)
  rcases h with ⟨h1, h2⟩ | ⟨h1, h2⟩
  · rw [if_neg (by omega)]
    exact Or.inl ⟨h1, h2⟩
  · rw [if_pos ⟨h1, h2⟩]
    refine Or.inr ?_
    rw [toNat_ofNat_valid _ (by omega)]
    omega

theorem toUpper_toNat_lower (c : Char) (h1 : 97 ≤ c.toNat) (h2 : c.toNat ≤ 122) :
    c.toUpper.toNat = c.toNat - 32 := by
  show (if 97 ≤ c.toNat ∧ c.toNat ≤ 122 then Char.ofNat (c.toNat - 32) else c).toNat
    = c.toNat - 32
  rw [if_pos ⟨h1, h2⟩, toNat_ofNat_valid _ (by omega)]

theorem toUpper_inj_base36 (x y : Char) (hx : isBase36Char x) (hy : isBase36Char y)
    (h : x.toUpper = y.toUpper) : x = y := by
  have hn := congrArg Char.toNat h
  rcases hx with ⟨a1, a2⟩ | ⟨a1, a2⟩ <;> rcases hy with ⟨b1, b2⟩ | ⟨b1, b2⟩
  · rwa [toUpper_eq_self x (Or.inl ⟨a1, a2⟩), toUpper_eq_self y (Or.inl ⟨b1, b2⟩)] at h
  · rw [toUpper_eq_self x (Or.inl ⟨a1, a2⟩), toUpper_toNat_lower y b1 b2] at hn
    omega
  · rw [toUpper_eq_self y (Or.inl ⟨b1, b2⟩), toUpper_toNat_lower x a1 a2] at hn
    omega
  · rw [toUpper_toNat_lower x a1 a2, toUpper_toNat_lower y b1 b2] at hn
    exact char_eq_of_toNat x y (by omega)

theorem map_toUpper_inj_base36 : ∀ a b : List Char,
    (∀ c ∈ a, isBase36Char c) → (∀ c ∈ b, isBase36Char c) →
    a.map Char.toUpper = b.map Char.toUpper → a = b := by
  intro a
  induction a with
  | nil =>
    intro b _ _ h
    cases b with
    | nil => rfl
    | cons y ys => simp at h
  | cons x xs ih =>
    intro b ha hb h
    cases b with
    | nil => simp at h
    | cons y ys =>
      simp only [List.map_cons, List.cons.injEq] at h
      rw [toUpper_inj_base36 x y (ha x (by simp)) (hb y (by simp)) h.1,
        ih ys (fun c hc => ha c (by simp [hc])) (fun c hc => hb c (by simp [hc])) h.2]

/-- C7 counterexample: `Math.random()` can return `0`, whose base-36
representation has no fraction digits, so `uid` yields the empty string
and the factory produces an empty `id` and `verificationCode` —
contradicting the claimed unconditional non-emptiness and fixed length. -/
theorem makeCertificate_empty_ids :
    (makeCertificate ⟨"Ana", "T", "I", "2024-03-01", ""⟩ [] [] "2024").id = ""
    ∧ (makeCertificate ⟨"Ana", "T", "I", "2024-03-01", ""⟩ [] [] "2024").verificationCode
        = "" :=
  ⟨rfl, rfl⟩

/-- C7 (amended): provided the random draws supply at least 12 and 16
base-36 fraction digits, the factory's `id` has length 12, its
`verificationCode` has length 16, both are non-empty, the code is
upper-case alphanumeric, and two creations whose draws differ in those
digit windows produce distinct ids and distinct codes. -/
theorem makeCertificate_ids (p p2 : CertPayload) (r1 r2 r3 r4 : List Char) (now now2 : String)
    (h1 : ∀ c ∈ r1, isBase36Char c) (h2 : ∀ c ∈ r2, isBase36Char c)
    (h3 : ∀ c ∈ r3, isBase36Char c) (h4 : ∀ c ∈ r4, isBase36Char c)
    (hl1 : 12 ≤ r1.length) (hl2 : 16 ≤ r2.length)
    (hd1 : r1.take 12 ≠ r3.take 12) (hd2 : r2.take 16 ≠ r4.take 16) :
    (makeCertificate p r1 r2 now).id.length = 12
    ∧ (makeCertificate p r1 r2 now).id ≠ ""
    ∧ (makeCertificate p r1 r2 now).verificationCode.length = 16
    ∧ (makeCertificate p r1 r2 now).verificationCode ≠ ""
    ∧ (∀ ch ∈ (makeCertificate p r1 r2 now).verificationCode.data, isUpperAlnumChar ch)
    ∧ (makeCertificate p r1 r2 now).id ≠ (makeCertificate p2 r3 r4 now2).id
    ∧ (makeCertificate p r1 r2 now).verificationCode
        ≠ (makeCertificate p2 r3 r4 now2).verificationCode := by
  have hid : (makeCertificate p r1 r2 now).id = String.mk (r1.take 12) := rfl
  have hcode : (makeCertificate p r1 r2 now).verificationCode
      = String.mk ((r2.take 16).map Char.toUpper) := rfl
  have hlen1 : (makeCertificate p r1 r2 now).id.length = 12 := by
    rw [hid]
    show (r1.take 12).length = 12
    simp
    omega
  have hlen2 : (makeCertificate p r1 r2 now).verificationCode.length = 16 := by
    rw [hcode]
    show ((r2.take 16).map Char.toUpper).length = 16
    simp
    omega
  refine ⟨hlen1, ?_, hlen2, ?_, ?_, ?_, ?_⟩
  · intro he
    rw [he] at hlen1
    simp at hlen1
  · intro he
    rw [he] at hlen2
    simp at hlen2
  · intro ch hch
    rw [hcode] at hch
    obtain ⟨x, hx, rfl⟩ := List.mem_map.mp hch
    exact toUpper_base36 x (h2 x (List.mem_of_mem_take hx))
  · intro he
    rw [hid] at he
    have := congrArg String.data he
    exact hd1 this
  · intro he
    rw [hcode] at he
    have hdata := congrArg String.data he
    exact hd2 (map_toUpper_inj_base36 (r2.take 16) (r4.take 16)
      (fun c hc => h2 c (List.mem_of_mem_take hc))
      (fun c hc => h4 c (List.mem_of_mem_take hc)) hdata)

/-- C7 witness: two creations from explicit differing base-36 draws. -/
theorem makeCertificate_ids_witness :
    ((∀ c ∈ ("abcdefghijkl" : String).data, isBase36Char c)
      ∧ (∀ c ∈ ("abcdefghijklmnop" : String).data, isBase36Char c)
      ∧ (∀ c ∈ ("000000000000" : String).data, isBase36Char c)
      ∧ (∀ c ∈ ("0000000000000000" : String).data, isBase36Char c)
      ∧ 12 ≤ ("abcdefghijkl" : String).data.length
      ∧ 16 ≤ ("abcdefghijklmnop" : String).data.length
      ∧ ("abcdefghijkl" : String).data.take 12 ≠ ("000000000000" : String).data.take 12
      ∧ ("abcdefghijklmnop" : String).data.take 16
          ≠ ("0000000000000000" : String).data.take 16)
    ∧ ((makeCertificate ⟨"Ana", "T", "I", "2024-03-01", ""⟩ ("abcdefghijkl" : String).data
          ("abcdefghijklmnop" : String).data "2024").id.length = 12
       ∧ (makeCertificate ⟨"Ana", "T", "I", "2024-03-01", ""⟩ ("abcdefghijkl" : String).data
          ("abcdefghijklmnop" : String).data "2024").id ≠ ""
       ∧ (makeCertificate ⟨"Ana", "T", "I", "2024-03-01", ""⟩ ("abcdefghijkl" : String).data
          ("abcdefghijklmnop" : String).data "2024").verificationCode.length = 16
       ∧ (makeCertificate ⟨"Ana", "T", "I", "2024-03-01", ""⟩ ("abcdefghijkl" : String).data
          ("abcdefghijklmnop" : String).data "2024").verificationCode ≠ ""
       ∧ (∀ ch ∈ (makeCertificate ⟨"Ana", "T", "I", "2024-03-01", ""⟩
            ("abcdefghijkl" : String).data
            ("abcdefghijklmnop" : String).data "2024").verificationCode.data,
            isUpperAlnumChar ch)
       ∧ (makeCertificate ⟨"Ana", "T", "I", "2024-03-01", ""⟩ ("abcdefghijkl" : String).data
            ("abcdefghijklmnop" : String).data "2024").id
          ≠ (makeCertificate ⟨"Bo", "T2", "I2", "2024-03-02", ""⟩
            ("000000000000" : String).data ("0000000000000000" : String).data "2025").id
       ∧ (makeCertificate ⟨"Ana", "T", "I", "2024-03-01", ""⟩ ("abcdefghijkl" : String).data
            ("abcdefghijklmnop" : String).data "2024").verificationCode
          ≠ (makeCertificate ⟨"Bo", "T2", "I2", "2024-03-02", ""⟩
            ("000000000000" : String).data
            ("0000000000000000" : String).data "2025").verificationCode) :=
  ⟨⟨by decide, by decide, by decide, by decide, by decide, by decide, by decide, by decide⟩,
    makeCertificate_ids ⟨"Ana", "T", "I", "2024-03-01", ""⟩ ⟨"Bo", "T2", "I2", "2024-03-02", ""⟩
      ("abcdefghijkl" : String).data ("abcdefghijklmnop" : String).data
      ("000000000000" : String).data ("0000000000000000" : String).data "2024" "2025"
      (by decide) (by decide) (by decide) (by decide) (by decide) (by decide)
      (by decide) (by decide)⟩

/-! ## Claim theorem: the mock QR box (C10) -/

/-- C10: `drawMockQR` never reads its text argument: two records
differing only in their verification code produce exactly the same
drawing commands — the checkerboard depends only on position and size. -/
theorem drawMockQR_text_independent (t1 t2 : String) (x y size : Int) :
    drawMockQR t1 x y size = drawMockQR t2 x y size := rfl

